import Mathlib

/-!
Verification of the Inspext field-extraction pipeline, batch coordinator,
CSV-export guard and recognition-engine pool.

The development shallowly embeds the three source files:
* `src/utils/ocr.ts`  — text normalization, plus-code / coordinate /
  timestamp extraction (`processImage`, lines 38–98) and the lazily
  initialized scheduler pool (`getScheduler`, lines 12–27);
* `src/App.tsx`       — the `onDrop` batch coordinator (lines 18–35);
* `src/utils/csv.ts`  — the `exportToCSV` row mapping.

Strings are modelled as `List Char`; JavaScript regular-expression
matching is modelled by hand-rolled deterministic matchers (where the
pattern allows no observable backtracking) and by a small greedy
backtracking engine `reRun` (for the timestamp patterns, where the
optional components genuinely interact).  `parseFloat` on the matched
coordinate tokens (at most 15 significant decimal digits, so the
double round-trips exactly) is modelled by exact rational values, and
`Number.prototype.toString` by the canonical decimal representation
(leading integer zeros and trailing fractional zeros stripped).
-/

deriving instance DecidableEq for Except

namespace Inspext

/-! ### Character classes (JavaScript semantics) -/

/-- JavaScript `\s` (also the character set stripped by `String.prototype.trim`):
tab through carriage return, space, NBSP, Ogham space mark, the U+2000–U+200A
range, line/paragraph separator, narrow NBSP, medium mathematical space,
ideographic space, and the BOM. -/
def jsWs (c : Char) : Bool :=
  let n := c.toNat
  (9 ≤ n && n ≤ 13) || n == 32 || n == 160 || n == 5760 ||
  (8192 ≤ n && n ≤ 8202) || n == 8232 || n == 8233 || n == 8239 ||
  n == 8287 || n == 12288 || n == 65279

/-- JavaScript `\d`, i.e. exactly the ASCII digits. -/
def isDigit (c : Char) : Bool := 48 ≤ c.toNat && c.toNat ≤ 57

/-- The class `[A-Z0-9]` under the `i` flag, i.e. `[A-Za-z0-9]`. -/
def isAlnum (c : Char) : Bool :=
  (65 ≤ c.toNat && c.toNat ≤ 90) || (97 ≤ c.toNat && c.toNat ≤ 122) ||
  (48 ≤ c.toNat && c.toNat ≤ 57)

/-- The class `[\s,]` used by the address-suffix pattern. -/
def isSepChar (c : Char) : Bool := jsWs c || c == ','

/-! ### Basic list helpers -/

/-- Does `pat` occur at the head of `l`? -/
def beginsWith : List Char → List Char → Bool
  | [], _ => true
  | _ :: _, [] => false
  | p :: ps, c :: cs => p == c && beginsWith ps cs

/-- Drop through the first occurrence of `pat` in `l` (the remainder after the
occurrence); `none` when `pat` does not occur.  Models locating the text after
the first occurrence of the separator in `String.prototype.split`. -/
def dropToAfter (pat l : List Char) : Option (List Char) :=
  match l with
  | [] => if beginsWith pat [] then some [] else none
  | c :: cs =>
    if beginsWith pat (c :: cs) then some (List.drop pat.length (c :: cs))
    else dropToAfter pat cs

/-- The characters of `l` strictly before the first occurrence of `pat`
(all of `l` when `pat` does not occur).  Together with `dropToAfter` this
models `text.split(pat)[1]`: the segment between the first occurrence of
`pat` and the next one. -/
def takeBefore (pat : List Char) : List Char → List Char
  | [] => []
  | c :: cs => if beginsWith pat (c :: cs) then [] else c :: takeBefore pat cs

/-- JavaScript `String.prototype.trim`. -/
def trimWs (l : List Char) : List Char :=
  ((l.dropWhile jsWs).reverse.dropWhile jsWs).reverse

/-! ### Step 1 — normalization (ocr.ts line 38)

`text.replace(/\n/g, " ").replace(/\s+/g, " ")`: first every newline becomes a
space, then every maximal run of whitespace collapses to a single space. -/

/-- Collapse each maximal run of JavaScript whitespace to one space: the
flag records whether the previous character was whitespace (the first
character of a run emits the space, the rest of the run is skipped). -/
def collapseAux : Bool → List Char → List Char
  | _, [] => []
  | prevWs, c :: cs =>
    if jsWs c then
      if prevWs then collapseAux true cs else ' ' :: collapseAux true cs
    else c :: collapseAux false cs

/-- Collapse each maximal run of JavaScript whitespace to one space. -/
def collapseWs (l : List Char) : List Char := collapseAux false l

/-- The normalized text of `ocr.ts` line 38, as a character list. -/
def normalizeText (s : String) : List Char :=
  collapseWs (s.toList.map (fun c => if c == '\n' then ' ' else c))

/-! ### Step 3 — coordinate extraction (ocr.ts lines 61–72)

The global regex `-?\d{1,3}[.,]\d{3,12}` is scanned left to right collecting
non-overlapping matches.  At a given start position the match is
deterministic: since the separator is not a digit, the greedy `\d{1,3}` can
succeed only by consuming the whole digit run (which must have length 1–3),
and the trailing `\d{3,12}` (with nothing after it) simply takes the first
`min 12` digits of the following run, requiring at least 3. -/

/-- A matched coordinate token: sign, integer-part digits, fraction digits. -/
structure NumTok where
  neg : Bool
  ip : List Char
  fp : List Char
deriving DecidableEq

/-- Match `\d{1,3}[.,]\d{3,12}` at the head of `l`. -/
def coordBody (l : List Char) : Option (NumTok × List Char) :=
  let ip := l.takeWhile isDigit
  let r1 := l.dropWhile isDigit
  if 1 ≤ ip.length ∧ ip.length ≤ 3 then
    match r1 with
    | c :: r2 =>
      if c == '.' || c == ',' then
        let fr := r2.takeWhile isDigit
        if 3 ≤ fr.length then
          let fp := fr.take 12
          some (⟨false, ip, fp⟩, r2.drop fp.length)
        else none
      else none
    | [] => none
  else none

/-- Match `-?\d{1,3}[.,]\d{3,12}` at the head of `l`. -/
def coordMatchAt (l : List Char) : Option (NumTok × List Char) :=
  match l with
  | '-' :: r => (coordBody r).map (fun tr => (⟨true, tr.1.ip, tr.1.fp⟩, tr.2))
  | _ => coordBody l

/-- One step of the non-overlapping global scan, with structural fuel.
Each step either consumes a whole match (at least 5 characters) or
advances one position, so fuel `l.length` always suffices. -/
def coordScanAux : Nat → List Char → List NumTok
  | 0, _ => []
  | _ + 1, [] => []
  | fuel + 1, c :: cs =>
    match coordMatchAt (c :: cs) with
    | some tr => tr.1 :: coordScanAux fuel tr.2
    | none => coordScanAux fuel cs

/-- All matches of the global scan `normalizedText.match(allNumbersRegex)`,
left to right, non-overlapping. -/
def coordScan (l : List Char) : List NumTok := coordScanAux l.length l

/-- Numeric value of a digit string. -/
def digitsToNat (l : List Char) : Nat :=
  l.foldl (fun a c => 10 * a + (c.toNat - 48)) 0

/-- The exact value `parseFloat` assigns to a matched token (after the
`','` → `'.'` normalization).  A token carries at most 3 integer and 12
fraction digits — at most 15 significant digits — so the IEEE double of
`parseFloat` round-trips exactly, and its ordering against the integer
bounds 23, 37, 60, 78 agrees with the exact rational ordering. -/
def tokVal (t : NumTok) : ℚ :=
  let m : ℚ := (digitsToNat t.ip : ℚ) + (digitsToNat t.fp : ℚ) / (10 : ℚ) ^ t.fp.length
  if t.neg then -m else m

/-- The token's value as a scaled integer: `tokVal t` times `10 ^ fp.length`. -/
def tokNum (t : NumTok) : Int :=
  (if t.neg then -1 else 1) *
    ((digitsToNat t.ip : Int) * (10 : Int) ^ t.fp.length + (digitsToNat t.fp : Int))

/-- The scaling denominator `10 ^ fp.length`. -/
def tokDen (t : NumTok) : Int := (10 : Int) ^ t.fp.length

/-- The filter `n => n >= 23 && n <= 37` of ocr.ts line 69 (comparison of
the parsed value with the bounds, as an executable scaled-integer test). -/
def inLat (t : NumTok) : Bool :=
  decide (23 * tokDen t ≤ tokNum t) && decide (tokNum t ≤ 37 * tokDen t)

/-- The filter `n => n >= 60 && n <= 78` of ocr.ts line 70. -/
def inLon (t : NumTok) : Bool :=
  decide (60 * tokDen t ≤ tokNum t) && decide (tokNum t ≤ 78 * tokDen t)

def stripLeadZeros (l : List Char) : List Char :=
  match l.dropWhile (fun c => c == '0') with
  | [] => ['0']
  | r => r

def stripTrailZeros (l : List Char) : List Char :=
  (l.reverse.dropWhile (fun c => c == '0')).reverse

/-- `Number.prototype.toString` on the value of a matched token: the unique
shortest decimal representation, i.e. the token with leading integer zeros
and trailing fraction zeros stripped (and `-0` printed as `0`). -/
def decStrTok (t : NumTok) : List Char :=
  let ipz := stripLeadZeros t.ip
  let fpz := stripTrailZeros t.fp
  let core := if fpz.isEmpty then ipz else ipz ++ '.' :: fpz
  if t.neg && !(t.ip.all (fun c => c == '0') && t.fp.all (fun c => c == '0'))
  then '-' :: core else core

/-- The latitude field of ocr.ts lines 65–72: head of the in-range
candidates, else the sentinel. -/
def latField (nt : List Char) : List Char :=
  match (coordScan nt).filter inLat with
  | [] => "Not found".toList
  | t :: _ => decStrTok t

/-- The longitude field of ocr.ts lines 66–73. -/
def lonField (nt : List Char) : List Char :=
  match (coordScan nt).filter inLon with
  | [] => "Not found".toList
  | t :: _ => decStrTok t

/-! ### Step 2 — plus code and address (ocr.ts lines 44–57)

`/[A-Z0-9]{4,8}\+[A-Z0-9]{2,4}/i` is deterministic at a given start
position: the `+` is not alphanumeric, so the greedy `[A-Z0-9]{4,8}` can
only consume the whole alphanumeric run (whose length must be 4–8), and the
final `[A-Z0-9]{2,4}` (nothing follows it) takes the first `min 4`
characters of the run after the `+`, requiring at least 2. -/

/-- Match the plus-code pattern at the head of `l`; `(token, rest)`. -/
def plusMatchAt (l : List Char) : Option (List Char × List Char) :=
  let a := l.takeWhile isAlnum
  let r1 := l.dropWhile isAlnum
  if 4 ≤ a.length ∧ a.length ≤ 8 then
    match r1 with
    | c :: r2 =>
      if c = '+' then
        let b := r2.takeWhile isAlnum
        if 2 ≤ b.length then
          let btk := b.take 4
          some (a ++ '+' :: btk, r2.drop btk.length)
        else none
      else none
    | [] => none
  else none

/-- First match of the plus-code pattern (`normalizedText.match(...)`),
scanning start positions left to right. -/
def plusSearchTok : List Char → Option (List Char)
  | [] => none
  | c :: cs =>
    match plusMatchAt (c :: cs) with
    | some tr => some tr.1
    | none => plusSearchTok cs

/-- The anchored address-suffix match of ocr.ts line 53,
`/^(?:[\s,]+[A-Za-z0-9]{2,}(?:[\s,]+[A-Za-z0-9]{2,})*)*/`: the maximal
prefix made of alternating separator runs and alphanumeric tokens of
length at least 2.  (Each run is consumed greedily; shortening a run can
never extend the overall match, because a shortened separator run would be
followed by a separator where an alphanumeric is required, and vice
versa.) -/
def addrSuffixAux : Nat → List Char → List Char
  | 0, _ => []
  | fuel + 1, l =>
    if (l.takeWhile isSepChar).isEmpty then [] else
    if ((l.dropWhile isSepChar).takeWhile isAlnum).length < 2 then [] else
    l.takeWhile isSepChar ++ (l.dropWhile isSepChar).takeWhile isAlnum ++
      addrSuffixAux fuel ((l.dropWhile isSepChar).dropWhile isAlnum)

/-- Fuel wrapper: each iteration consumes at least 3 characters, so fuel
`l.length` always suffices. -/
def addrSuffix (l : List Char) : List Char := addrSuffixAux l.length l

/-- The trailing-separator trim of ocr.ts line 56, `.replace(/[,\s]+$/, "")`. -/
def trimTrailSeps (l : List Char) : List Char :=
  (l.reverse.dropWhile isSepChar).reverse

/-- The plus-code field of ocr.ts lines 44–57.  When a token matches, the
text handed to the suffix pattern is `normalizedText.split(pc)[1] || ""`:
the segment of the normalized text between the first occurrence of the
matched token and its next occurrence (empty when the token is a suffix of
the text). -/
def plusCodeField (nt : List Char) : List Char :=
  match plusSearchTok nt with
  | none => "Not found".toList
  | some tok =>
    let pc := trimWs tok
    let afterM :=
      match dropToAfter pc nt with
      | some rest => takeBefore pc rest
      | none => []
    pc ++ trimTrailSeps (addrSuffix afterM)

/-- The plus-code field as claim C2 words it: the trailing address suffix is
matched against all of the text after the first match (no truncation at a
second occurrence of the token). -/
def plusCodeClaim (nt : List Char) : List Char :=
  match plusSearchTok nt with
  | none => "Not found".toList
  | some tok =>
    let afterM :=
      match dropToAfter (trimWs tok) nt with
      | some rest => rest
      | none => []
    trimWs tok ++ trimTrailSeps (addrSuffix afterM)

/-- Claim-side (C2): does a well-formed plus-code token — `la` alphanumerics
for some `la` between 4 and 8, a literal `+`, then `lb` alphanumerics for
some `lb` between 2 and 4 — sit at the head of `seg`?  Written as a direct
bounded check of the claim's shape, independent of the matcher. -/
def specTokSeg (seg : List Char) : Bool :=
  (List.range' 4 5).any (fun la =>
    (List.range' 2 3).any (fun lb =>
      decide ((seg.take la).length = la) && (seg.take la).all isAlnum &&
      decide ((seg.drop la).take 1 = ['+']) &&
      decide (((seg.drop (la + 1)).take lb).length = lb) &&
      ((seg.drop (la + 1)).take lb).all isAlnum))

/-- Claim-side (C2): a well-formed plus-code token occurs at offset `i`. -/
def specTokAt (nt : List Char) (i : Nat) : Bool := specTokSeg (nt.drop i)

/-- Claim-side (C2): the text contains a well-formed plus-code token. -/
def specHasTok (nt : List Char) : Bool :=
  (List.range nt.length).any (fun i => specTokAt nt i)

/-! ### Step 4 — timestamps (ocr.ts lines 75–89)

The four timestamp regexes mix greedy optional parts (`(?::\d{2})?`,
`\s?`, `(?:AM|PM)?`) whose interaction is genuine backtracking, so they
are modelled with a small greedy backtracking engine: `reRun r l` is the
list of possible remainders after matching `r` at the head of `l`, in the
engine's preference order (more-consuming alternatives first, exactly the
JavaScript backtracking order), and a sequence takes the first overall
combination in lexicographic preference order. -/

inductive RE where
  | eps
  | cls (p : Char → Bool)
  | seq (a b : RE)
  | alt (a b : RE)

/-- All remainders after matching `r` at the head of `l`, in the engine's
preference order: a greedy alternation lists its left branch first, and a
sequence explores the combinations lexicographically — exactly the
JavaScript backtracking order.  The bounded repetitions of the timestamp
patterns (`\d{1,2}`, `\d{2,4}`, and the `?`-optionals) are expressed as
alternations of fixed-length sequences in descending length order, which
for these single-character-class bodies is precisely the greedy semantics. -/
def reRun : RE → List Char → List (List Char)
  | .eps, l => [l]
  | .cls _, [] => []
  | .cls p, c :: cs => if p c then [cs] else []
  | .seq a b, l => (reRun a l).flatMap (reRun b)
  | .alt a b, l => reRun a l ++ reRun b l

/-- Sequence a list of pieces. -/
def reSeq (l : List RE) : RE := l.foldr .seq .eps

def dC : RE := .cls isDigit
/-- `\d{2}`. -/
def d2 : RE := .seq dC dC
/-- `\d{1,2}`, greedy: two digits preferred over one. -/
def ds12 : RE := .alt d2 dC
/-- `\d{2,4}`, greedy: four digits, then three, then two. -/
def ds24 : RE := .alt (.seq d2 d2) (.alt (.seq d2 dC) d2)
def chC (c : Char) : RE := .cls (fun x => x == c)
def wsC : RE := .cls jsWs
/-- `(?:...)?` — greedy option: present preferred over absent. -/
def reOpt (r : RE) : RE := .alt r .eps
/-- `(?:AM|PM)` under the `i` flag: one of `AaPp` then one of `Mm`. -/
def ampmRE : RE :=
  .seq (.cls (fun c => c == 'A' || c == 'a' || c == 'P' || c == 'p'))
    (.cls (fun c => c == 'M' || c == 'm'))
/-- `(?::\d{2})?` — optional seconds. -/
def optSec : RE := reOpt (.seq (chC ':') d2)

/-- `\d{1,2}:\d{2}(?::\d{2})?\s?(?:AM|PM)` — pattern 1's time group
(AM/PM marker required). -/
def time12req : RE :=
  reSeq [ds12, chC ':', d2, optSec, reOpt wsC, ampmRE]

/-- `\d{1,2}:\d{2}(?::\d{2})?\s?(?:AM|PM)?` — pattern 2's time group
(AM/PM marker optional). -/
def time12opt : RE :=
  reSeq [ds12, chC ':', d2, optSec, reOpt wsC, reOpt ampmRE]

/-- `\d{2}:\d{2}(?::\d{2})?` — patterns 3 and 4's 24-hour time group
(2-digit hour, no AM/PM allowed). -/
def time24 : RE := reSeq [d2, chC ':', d2, optSec]

/-- `\d{1,2}\/\d{1,2}\/\d{2,4}` — the date group of all four patterns. -/
def dateRE : RE := reSeq [ds12, chC '/', ds12, chC '/', ds24]

/-- The captured text: the prefix of `l` consumed down to remainder `rest`. -/
def capOf (l rest : List Char) : List Char := l.take (l.length - rest.length)

/-- The greedy remainders of `\s+` at the head of `l`: consume between 1
and all of the leading whitespace run, preferring more. -/
def wsPlus (l : List Char) : List (List Char) :=
  let k := (l.takeWhile jsWs).length
  (List.range k).map (fun j => l.drop (k - j))

/-- Match `(g1)\s+(g2)` anchored at the head of `l`; the two captures of
the first combination in backtracking preference order. -/
def matchTwoAt (g1 g2 : RE) (l : List Char) : Option (List Char × List Char) :=
  ((reRun g1 l).flatMap (fun l1 =>
    (wsPlus l1).flatMap (fun l2 =>
      (reRun g2 l2).map (fun l3 => (capOf l l1, capOf l2 l3))))).head?

/-- Search `(g1)\s+(g2)` at every start position, left to right
(JavaScript `String.prototype.match` without the `g` flag). -/
def searchTwo (g1 g2 : RE) : List Char → Option (List Char × List Char)
  | [] => matchTwoAt g1 g2 []
  | c :: cs => matchTwoAt g1 g2 (c :: cs) <|> searchTwo g1 g2 cs

/-- The four timestamp patterns of ocr.ts lines 76–81, in priority order:
`{12h time + required AM/PM, date}`, `{date, time + optional AM/PM}`,
`{2-digit 24h time, date}`, `{date, 2-digit 24h time}`. -/
def tsPatterns : List (RE × RE) :=
  [(time12req, dateRE), (dateRE, time12opt), (time24, dateRE), (dateRE, time24)]

/-- The timestamp field of ocr.ts lines 83–89: the first pattern (in
priority order) that matches anywhere yields the two captures joined by a
space, trimmed; otherwise the sentinel. -/
def tsField (nt : List Char) : List Char :=
  match tsPatterns.findSome? (fun pr => searchTwo pr.1 pr.2 nt) with
  | some c => trimWs (c.1 ++ ' ' :: c.2)
  | none => "Not found".toList

/-- `\d{2}:\d{2}(?::\d{2})?\s?(?:AM|PM)?` — a 24-hour time group as claim
C3 words it, with an optional AM/PM marker. -/
def time24claim : RE :=
  reSeq [d2, chC ':', d2, optSec, reOpt wsC, reOpt ampmRE]

/-- The four pattern shapes exactly as claim C3 words them: each of the
four combinations carries an optional AM/PM marker. -/
def tsPatternsClaim : List (RE × RE) :=
  [(time12opt, dateRE), (dateRE, time12opt), (time24claim, dateRE),
   (dateRE, time24claim)]

/-- The timestamp field as claim C3 words it. -/
def tsFieldClaim (nt : List Char) : List Char :=
  match tsPatternsClaim.findSome? (fun pr => searchTwo pr.1 pr.2 nt) with
  | some c => trimWs (c.1 ++ ' ' :: c.2)
  | none => "Not found".toList

/-! ### The extraction record and `processImage`'s pure part -/

/-- `ExtractedData` of ocr.ts lines 3–10. -/
structure ExtractedData where
  imageName : String
  plusCode : String
  latitude : String
  longitude : String
  timestamp : String
  originalText : String
deriving DecidableEq

/-- The pure part of `processImage` (ocr.ts lines 38–98): from the raw
recognized `text` (and the file's display name) to the extracted record.
The function is total — extraction misses yield the `"Not found"` sentinel,
never an exception. -/
def processText (name text : String) : ExtractedData :=
  let nt := normalizeText text
  { imageName := name
    plusCode := String.mk (plusCodeField nt)
    latitude := String.mk (latField nt)
    longitude := String.mk (lonField nt)
    timestamp := String.mk (tsField nt)
    originalText := text }

/-! ### The batch coordinator (App.tsx, `onDrop`, lines 18–35)

Each accepted file is processed independently; the per-file recognition
outcome is modelled as `Except String String` (engine error or recognized
text).  A file whose recognition fails contributes `none` to the result
list — the `catch` branch returns `null` after logging
`Error processing <name>` with the error to the console — and
`Promise.all` preserves input order, so the result list is in index
correspondence with the inputs. -/

/-- One `processingPromises` entry: the result slot and the console-error
log entries it emits. -/
def processEntry : String × Except String String →
    Option ExtractedData × List (String × String)
  | (n, .ok t) => (some (processText n t), [])
  | (n, .error e) => (none, [(n, e)])

/-- The `results` array of App.tsx line 30. -/
def onDropResults (inputs : List (String × Except String String)) :
    List (Option ExtractedData) :=
  inputs.map (fun x => (processEntry x).1)

/-- The console-error log entries emitted while processing the batch. -/
def onDropLogs (inputs : List (String × Except String String)) :
    List (String × String) :=
  inputs.flatMap (fun x => (processEntry x).2)

/-- `finalResults` of App.tsx line 31: the non-null entries. -/
def onDropFinal (inputs : List (String × Except String String)) :
    List ExtractedData :=
  (onDropResults inputs).filterMap id

/-- The row mapping of `exportToCSV` (csv.ts lines 5–11): one data row of
five cells per record, columns Location/Plus Code, Latitude, Longitude,
Timestamp, PICS. -/
def csvRows (recs : List ExtractedData) : List (List String) :=
  recs.map (fun r => [r.plusCode, r.latitude, r.longitude, r.timestamp, r.imageName])

/-- The file-producing export actions of one batch (App.tsx lines 33–35):
`exportToCSV` is invoked exactly once when `finalResults.length > 0`,
otherwise not at all. -/
def exportActions (inputs : List (String × Except String String)) :
    List (List (List String)) :=
  if (onDropFinal inputs).length > 0 then [csvRows (onDropFinal inputs)] else []

/-! ### The scheduler pool (ocr.ts lines 12–27)

`getScheduler` lives on a module-level `scheduler` variable.  JavaScript is
single-threaded and the null-check plus the `scheduler = createScheduler()`
assignment run with no intervening `await`, so the pool is modelled as a
state machine driven by atomic events: a call to `getScheduler`, a
`createWorker` resolution (`addWorker` runs), or a `createWorker`
rejection (the initializing call's `Promise.all` rejects).  A call that
finds `scheduler` non-null returns it immediately — its result records the
scheduler's identity and how many workers had been added at that moment.
The initializing call is `pending` until all `WORKER_COUNT` workers are
ready (its result then shows the full pool) or a worker fails (its result
is `failed`). -/

def WORKER_COUNT : Nat := 3

inductive CallRes where
  | ok (schedId workers : Nat)
  | failed
deriving DecidableEq

inductive PoolEv where
  | call (cid : Nat)
  | workerReady
  | workerFail
deriving DecidableEq

structure PoolSt where
  /-- The module variable `scheduler`; `some i` holds the identity of the
  `i`-th constructed scheduler. -/
  sched : Option Nat
  /-- Workers added so far (`addWorker` calls). -/
  workers : Nat
  /-- How many times the engine batch has been constructed
  (`createScheduler` plus the `WORKER_COUNT` `createWorker` launches). -/
  constructions : Nat
  /-- The caller awaiting `Promise.all`, if any. -/
  pending : Option Nat
  /-- Results observed by callers, in resolution order. -/
  returns : List (Nat × CallRes)
deriving DecidableEq

def poolInit : PoolSt := ⟨none, 0, 0, none, []⟩

def poolStep (s : PoolSt) : PoolEv → PoolSt
  | .call cid =>
    match s.sched with
    | some i => { s with returns := s.returns ++ [(cid, .ok i s.workers)] }
    | none =>
      { s with sched := some (s.constructions + 1),
               constructions := s.constructions + 1, pending := some cid }
  | .workerReady =>
    match s.sched with
    | none => s
    | some i =>
      if s.workers + 1 == WORKER_COUNT then
        { s with workers := s.workers + 1, pending := none,
                 returns := s.returns ++
                   (match s.pending with
                    | some p => [(p, .ok i (s.workers + 1))]
                    | none => []) }
      else { s with workers := s.workers + 1 }
  | .workerFail =>
    match s.sched, s.pending with
    | some _, some p =>
      { s with pending := none, returns := s.returns ++ [(p, .failed)] }
    | _, _ => s

/-- Run the pool from the fresh module state through a sequence of events. -/
def runPool (evs : List PoolEv) : PoolSt := evs.foldl poolStep poolInit

def isCallEv : PoolEv → Bool
  | .call _ => true
  | _ => false

/-! ### The worked-example input, the pool invariant, and digit-led patterns -/

/-- The worked example input of the spec's testable properties. -/
def c6input : String :=
  "9AB8+2X Lahore, Punjab 31.5204,74.3587 some noise 14:30 08/11/2023"

/-- Invariant of the pool state machine: the scheduler is constructed at
most once (the only construction publishes identity 1), and every result a
caller has observed refers to that one scheduler. -/
def PoolInv (s : PoolSt) : Prop :=
  (s.sched = none → s.constructions = 0 ∧ s.returns = [] ∧ s.pending = none) ∧
  (∀ i, s.sched = some i → i = 1 ∧ s.constructions = 1) ∧
  (∀ c i w, (c, CallRes.ok i w) ∈ s.returns → i = 1)

/-- Group patterns whose every match starts by consuming a digit. -/
def HeadDigit (g : RE) : Prop :=
  ∀ l l' : List Char, l' ∈ reRun g l →
    ∃ c cs, l = c :: cs ∧ isDigit c = true ∧ l'.length < l.length

/-! ## General lemmas -/

theorem isAlnum_not_ws {c : Char} (h : isAlnum c = true) : jsWs c = false := by
  rw [Bool.eq_false_iff]
  intro hw
  simp only [isAlnum, Bool.or_eq_true, Bool.and_eq_true, decide_eq_true_eq] at h
  simp only [jsWs, Bool.or_eq_true, Bool.and_eq_true, decide_eq_true_eq,
    beq_iff_eq] at hw
  omega

theorem isDigit_not_ws {c : Char} (h : isDigit c = true) : jsWs c = false := by
  rw [Bool.eq_false_iff]
  intro hw
  simp only [isDigit, Bool.and_eq_true, decide_eq_true_eq] at h
  simp only [jsWs, Bool.or_eq_true, Bool.and_eq_true, decide_eq_true_eq,
    beq_iff_eq] at hw
  omega

theorem tokVal_eq_div (t : NumTok) : tokVal t = (tokNum t : ℚ) / (tokDen t : ℚ) := by
  have hp : ((10 : ℚ) ^ t.fp.length) ≠ 0 := by positivity
  unfold tokVal tokNum tokDen
  cases hn : t.neg <;> push_cast <;> field_simp

theorem tokDen_pos (t : NumTok) : (0 : ℚ) < ((tokDen t : Int) : ℚ) := by
  unfold tokDen; push_cast; positivity

/-- The executable latitude filter means exactly `23 ≤ value ≤ 37`. -/
theorem inLat_iff (t : NumTok) :
    inLat t = true ↔ ((23 : ℚ) ≤ tokVal t ∧ tokVal t ≤ 37) := by
  have hd := tokDen_pos t
  rw [tokVal_eq_div]
  unfold inLat
  rw [Bool.and_eq_true, decide_eq_true_eq, decide_eq_true_eq,
    le_div_iff₀ hd, div_le_iff₀ hd]
  constructor
  · rintro ⟨h1, h2⟩
    constructor
    · calc ((23 : ℚ)) * (tokDen t : ℚ) = ((23 * tokDen t : Int) : ℚ) := by push_cast; ring
        _ ≤ (tokNum t : ℚ) := by exact_mod_cast h1
    · calc ((tokNum t : Int) : ℚ) ≤ ((37 * tokDen t : Int) : ℚ) := by exact_mod_cast h2
        _ = 37 * (tokDen t : ℚ) := by push_cast; ring
  · rintro ⟨h1, h2⟩
    constructor
    · have : ((23 * tokDen t : Int) : ℚ) ≤ (tokNum t : ℚ) := by push_cast; linarith
      exact_mod_cast this
    · have : ((tokNum t : Int) : ℚ) ≤ ((37 * tokDen t : Int) : ℚ) := by push_cast; linarith
      exact_mod_cast this

/-- The executable longitude filter means exactly `60 ≤ value ≤ 78`. -/
theorem inLon_iff (t : NumTok) :
    inLon t = true ↔ ((60 : ℚ) ≤ tokVal t ∧ tokVal t ≤ 78) := by
  have hd := tokDen_pos t
  rw [tokVal_eq_div]
  unfold inLon
  rw [Bool.and_eq_true, decide_eq_true_eq, decide_eq_true_eq,
    le_div_iff₀ hd, div_le_iff₀ hd]
  constructor
  · rintro ⟨h1, h2⟩
    constructor
    · calc ((60 : ℚ)) * (tokDen t : ℚ) = ((60 * tokDen t : Int) : ℚ) := by push_cast; ring
        _ ≤ (tokNum t : ℚ) := by exact_mod_cast h1
    · calc ((tokNum t : Int) : ℚ) ≤ ((78 * tokDen t : Int) : ℚ) := by exact_mod_cast h2
        _ = 78 * (tokDen t : ℚ) := by push_cast; ring
  · rintro ⟨h1, h2⟩
    constructor
    · have : ((60 * tokDen t : Int) : ℚ) ≤ (tokNum t : ℚ) := by push_cast; linarith
      exact_mod_cast this
    · have : ((tokNum t : Int) : ℚ) ≤ ((78 * tokDen t : Int) : ℚ) := by push_cast; linarith
      exact_mod_cast this


theorem find?_congr_fun {α : Type} (p q : α → Bool) (h : ∀ a, p a = q a)
    (l : List α) : l.find? p = l.find? q := by
  induction l with
  | nil => rfl
  | cons x xs ih => simp only [List.find?_cons, h x, ih]

/-- The head of the filtered list is the first element satisfying the
predicate. -/
theorem head?_filter_eq_find? {α : Type} (p : α → Bool) (l : List α) :
    (l.filter p).head? = l.find? p := by
  induction l with
  | nil => rfl
  | cons x xs ih =>
    by_cases h : p x <;> simp [List.filter_cons, List.find?_cons, h, ih]

theorem inLat_eq_decide (t : NumTok) :
    inLat t = decide ((23 : ℚ) ≤ tokVal t ∧ tokVal t ≤ 37) := by
  rw [Bool.eq_iff_iff, decide_eq_true_eq]
  exact inLat_iff t

theorem inLon_eq_decide (t : NumTok) :
    inLon t = decide ((60 : ℚ) ≤ tokVal t ∧ tokVal t ≤ 78) := by
  rw [Bool.eq_iff_iff, decide_eq_true_eq]
  exact inLon_iff t

/-! ## Claim C1 — coordinate selection -/

/-- Claim C1 (confirmed).  For every input text, the candidates are the
left-to-right scan's matches of "optional minus, 1–3 digits, `.` or `,`,
3–12 digits", each parsed with `,` normalized to `.`; the latitude field is
the decimal string representation of the first parsed value lying in
[23, 37] and the longitude field that of the first parsed value lying in
[60, 78] (`List.find?` returns the first list element satisfying the range
test, so a value outside both ranges is never selected for either field);
when no candidate is in range the field is exactly `"Not found"`. -/
theorem claim_C1 (name text : String) :
    ((processText name text).latitude = String.mk
      (match (coordScan (normalizeText text)).find?
          (fun t => decide ((23 : ℚ) ≤ tokVal t ∧ tokVal t ≤ 37)) with
        | some t => decStrTok t
        | none => "Not found".toList)) ∧
    ((processText name text).longitude = String.mk
      (match (coordScan (normalizeText text)).find?
          (fun t => decide ((60 : ℚ) ≤ tokVal t ∧ tokVal t ≤ 78)) with
        | some t => decStrTok t
        | none => "Not found".toList)) := by
  constructor
  · show String.mk (latField (normalizeText text)) = _
    unfold latField
    have hq := find?_congr_fun inLat _ (fun t => inLat_eq_decide t)
      (coordScan (normalizeText text))
    rcases hf : List.filter inLat (coordScan (normalizeText text)) with _ | ⟨t, ts⟩
    · have hn : (coordScan (normalizeText text)).find? inLat = none := by
        rw [← head?_filter_eq_find?, hf]; rfl
      rw [← hq, hn]
    · have hs : (coordScan (normalizeText text)).find? inLat = some t := by
        rw [← head?_filter_eq_find?, hf]; rfl
      rw [← hq, hs]
  · show String.mk (lonField (normalizeText text)) = _
    unfold lonField
    have hq := find?_congr_fun inLon _ (fun t => inLon_eq_decide t)
      (coordScan (normalizeText text))
    rcases hf : List.filter inLon (coordScan (normalizeText text)) with _ | ⟨t, ts⟩
    · have hn : (coordScan (normalizeText text)).find? inLon = none := by
        rw [← head?_filter_eq_find?, hf]; rfl
      rw [← hq, hn]
    · have hs : (coordScan (normalizeText text)).find? inLon = some t := by
        rw [← head?_filter_eq_find?, hf]; rfl
      rw [← hq, hs]

/-! ## Claim C2 — plus-code extraction: the counterexample -/

/-- Claim C2 counterexample.  The claim says the suffix logic consumes the
valid trailing address suffix of the text after the match; the code
instead applies it to `normalizedText.split(pc)[1]`, the segment strictly
between the first and the *second* occurrence of the matched token.  On
`"AAAA+BB xx AAAA+BB yy"` the code produces `"AAAA+BB xx"` while the
claim's reading produces `"AAAA+BB xx AAAA"` (the suffix pattern runs past
the second occurrence and swallows its alphanumeric prefix `AAAA`). -/
theorem claim_C2_counterexample :
    (processText "img" "AAAA+BB xx AAAA+BB yy").plusCode = "AAAA+BB xx" ∧
    String.mk (plusCodeClaim (normalizeText "AAAA+BB xx AAAA+BB yy")) =
      "AAAA+BB xx AAAA" ∧
    plusCodeField (normalizeText "AAAA+BB xx AAAA+BB yy") ≠
      plusCodeClaim (normalizeText "AAAA+BB xx AAAA+BB yy") := by decide

/-! ## Claim C5 — per-image failure isolation -/

/-- Claim C5 counterexample.  The claim says a failed image's batch entry
is a failure marker *tagged with the image's display name and the
underlying error*; in the code the entry is the bare `null` marker, which
carries neither — two batches whose failing images differ in name (and
error) produce identical entries. -/
theorem claim_C5_counterexample :
    onDropResults [("a.jpg", Except.error "engine crashed")] =
      onDropResults [("b.jpg", Except.error "out of memory")] ∧
    onDropResults [("a.jpg", Except.error "engine crashed")] = [none] := by
  decide

/-- Claim C5 as amended (proved).  For every batch, the coordinator
returns exactly one entry per input in index correspondence; when image
`j`'s recognition fails, entry `j` is the *untagged* failure marker
(`null`), and the image's display name together with the underlying error
is emitted to the console log instead; every other entry is the normal
extracted record of its own image, so one image's failure does not abort
or prevent the processing of sibling images. -/
theorem claim_C5_amended (inputs : List (String × Except String String))
    (j : Nat) :
    (onDropResults inputs).length = inputs.length ∧
    (onDropResults inputs)[j]? = (inputs[j]?).map (fun x => (processEntry x).1) ∧
    (∀ n e, (n, Except.error e) ∈ inputs → (n, e) ∈ onDropLogs inputs) ∧
    (∀ n e, inputs[j]? = some (n, Except.error e) →
      (onDropResults inputs)[j]? = some none) ∧
    (∀ n t, inputs[j]? = some (n, Except.ok t) →
      (onDropResults inputs)[j]? = some (some (processText n t))) := by
  refine ⟨List.length_map _ _, List.getElem?_map _ _ _, ?_, ?_, ?_⟩
  · intro n e hmem
    unfold onDropLogs
    rw [List.mem_flatMap]
    exact ⟨(n, Except.error e), hmem, by simp [processEntry]⟩
  · intro n e hj
    unfold onDropResults
    rw [List.getElem?_map, hj]
    rfl
  · intro n t hj
    unfold onDropResults
    rw [List.getElem?_map, hj]
    rfl

/-- Witness for the amended C5 on a concrete two-image batch whose second
image fails. -/
theorem claim_C5_witness :
    ((onDropResults [("a.jpg", Except.ok "x"), ("b.jpg", Except.error "boom")]).length = 2 ∧
     ("b.jpg", "boom") ∈
       onDropLogs [("a.jpg", Except.ok "x"), ("b.jpg", Except.error "boom")] ∧
     (onDropResults [("a.jpg", Except.ok "x"), ("b.jpg", Except.error "boom")])[1]? =
       some none ∧
     (onDropResults [("a.jpg", Except.ok "x"), ("b.jpg", Except.error "boom")])[0]? =
       some (some (processText "a.jpg" "x"))) := by
  have h := claim_C5_amended [("a.jpg", Except.ok "x"), ("b.jpg", Except.error "boom")] 1
  have h0 := claim_C5_amended [("a.jpg", Except.ok "x"), ("b.jpg", Except.error "boom")] 0
  exact ⟨h.1, h.2.2.1 "b.jpg" "boom" (by decide), h.2.2.2.1 "b.jpg" "boom" (by decide),
    h0.2.2.2.2 "a.jpg" "x" (by decide)⟩

/-! ## Claim C8 — export of successes only -/

/-- Claim C8 (confirmed).  Exactly the successful records of a batch are
forwarded to the export step; a batch with zero successes performs no
file-producing action, and a batch with at least one success triggers
exactly one export, consisting of precisely those records (one 5-column
row per record). -/
theorem claim_C8 (inputs : List (String × Except String String)) :
    (∀ r, r ∈ onDropFinal inputs ↔ some r ∈ onDropResults inputs) ∧
    (onDropFinal inputs = [] → exportActions inputs = []) ∧
    (onDropFinal inputs ≠ [] →
      exportActions inputs = [csvRows (onDropFinal inputs)]) := by
  refine ⟨?_, ?_, ?_⟩
  · intro r
    unfold onDropFinal
    rw [List.mem_filterMap]
    constructor
    · rintro ⟨a, ha, hb⟩
      cases a with
      | none => exact absurd hb (by simp)
      | some x => simpa [show x = r by simpa using hb] using ha
    · intro hmem
      exact ⟨some r, hmem, rfl⟩
  · intro h
    unfold exportActions
    rw [h]
    rfl
  · intro h
    unfold exportActions
    have hl : 0 < (onDropFinal inputs).length := List.length_pos.mpr h
    rw [if_pos hl]

/-- Witness for C8: a batch whose single image fails exports nothing; a
batch with one success exports exactly one file holding that record's
row. -/
theorem claim_C8_witness :
    exportActions [("a.jpg", Except.error "boom")] = [] ∧
    exportActions [("b.jpg", Except.ok "hello")] =
      [csvRows (onDropFinal [("b.jpg", Except.ok "hello")])] := by
  refine ⟨(claim_C8 [("a.jpg", Except.error "boom")]).2.1 (by decide),
    (claim_C8 [("b.jpg", Except.ok "hello")]).2.2 ?_⟩
  decide

/-! ## Claim C3 — timestamp patterns -/

/-- Claim C3 counterexample.  The claim describes all four pattern shapes
as carrying an *optional* AM/PM marker.  On `"4:30 08/11/2023"` a
{12-hour time with optional marker, date} shape matches, so the claim's
extractor yields `"4:30 08/11/2023"`; the code's first pattern *requires*
the AM/PM marker and its 24-hour patterns require a 2-digit hour, so the
code yields `"Not found"`. -/
theorem claim_C3_counterexample :
    (processText "img" "4:30 08/11/2023").timestamp = "Not found" ∧
    String.mk (tsFieldClaim (normalizeText "4:30 08/11/2023")) =
      "4:30 08/11/2023" ∧
    tsFieldClaim (normalizeText "4:30 08/11/2023") ≠
      tsField (normalizeText "4:30 08/11/2023") := by decide

/-- Claim C3 as amended (proved).  Timestamp extraction tries exactly four
pattern shapes in fixed priority order — {12-hour time with *required*
AM/PM marker, date}, {date, time with *optional* AM/PM marker},
{2-digit-hour 24-hour time without AM/PM, date}, {date, 2-digit-hour
24-hour time without AM/PM} — each with `/`-separated date components,
`:`-separated time components and optional seconds; the first pattern that
matches anywhere in the normalized text yields the timestamp field as the
two captured groups joined by a single space and trimmed, and if no
pattern matches the field is exactly `"Not found"`. -/
theorem claim_C3_amended (name text : String) :
    (processText name text).timestamp = String.mk
      (match searchTwo time12req dateRE (normalizeText text) with
       | some c => trimWs (c.1 ++ ' ' :: c.2)
       | none =>
         match searchTwo dateRE time12opt (normalizeText text) with
         | some c => trimWs (c.1 ++ ' ' :: c.2)
         | none =>
           match searchTwo time24 dateRE (normalizeText text) with
           | some c => trimWs (c.1 ++ ' ' :: c.2)
           | none =>
             match searchTwo dateRE time24 (normalizeText text) with
             | some c => trimWs (c.1 ++ ' ' :: c.2)
             | none => "Not found".toList) := by
  show String.mk (tsField (normalizeText text)) = _
  unfold tsField tsPatterns
  cases h1 : searchTwo time12req dateRE (normalizeText text) <;>
    cases h2 : searchTwo dateRE time12opt (normalizeText text) <;>
      cases h3 : searchTwo time24 dateRE (normalizeText text) <;>
        cases h4 : searchTwo dateRE time24 (normalizeText text) <;>
          simp [List.findSome?_cons, h1, h2, h3, h4]

/-! ## Claim C6 — the worked example -/

/-- Claim C6 (confirmed).  On the worked example, the plus-code field
starts with `"9AB8+2X"` and contains the address suffix
`"Lahore, Punjab"`, the latitude is `"31.5204"`, the longitude is
`"74.3587"` and the timestamp is `"14:30 08/11/2023"`.  (The full
plus-code field is `"9AB8+2X Lahore, Punjab 31"` — the suffix pattern also
swallows the alphanumeric token `31` — which indeed starts with the token
and contains the suffix, exactly as the claim states.) -/
theorem claim_C6 :
    beginsWith "9AB8+2X".toList (processText "img.jpg" c6input).plusCode.toList
      = true ∧
    (dropToAfter "Lahore, Punjab".toList
      (processText "img.jpg" c6input).plusCode.toList).isSome = true ∧
    (processText "img.jpg" c6input).latitude = "31.5204" ∧
    (processText "img.jpg" c6input).longitude = "74.3587" ∧
    (processText "img.jpg" c6input).timestamp = "14:30 08/11/2023" := by
  decide

/-! ## Claim C10 — originalText is the raw text -/

/-- Claim C10 (confirmed).  The `originalText` field is exactly the raw
recognized text, before normalization; the four extracted fields are
functions of the normalized text alone, so normalization affects only
their matching and never the stored `originalText`. -/
theorem claim_C10 (name t1 t2 : String) :
    (processText name t1).originalText = t1 ∧
    (normalizeText t1 = normalizeText t2 →
      (processText name t1).plusCode = (processText name t2).plusCode ∧
      (processText name t1).latitude = (processText name t2).latitude ∧
      (processText name t1).longitude = (processText name t2).longitude ∧
      (processText name t1).timestamp = (processText name t2).timestamp) := by
  refine ⟨rfl, fun h => ?_⟩
  unfold processText
  rw [h]
  exact ⟨rfl, rfl, rfl, rfl⟩

/-- Witness for C10 at a concrete input: `"a\nb"` and `"a b"` normalize
identically, so all four extracted fields agree while `originalText`
keeps the two raw texts distinct. -/
theorem claim_C10_witness :
    (processText "img" "a\nb").originalText = "a\nb" ∧
    ((processText "img" "a\nb").plusCode = (processText "img" "a b").plusCode ∧
      (processText "img" "a\nb").latitude = (processText "img" "a b").latitude ∧
      (processText "img" "a\nb").longitude = (processText "img" "a b").longitude ∧
      (processText "img" "a\nb").timestamp = (processText "img" "a b").timestamp) :=
  ⟨(claim_C10 "img" "a\nb" "a b").1, (claim_C10 "img" "a\nb" "a b").2 (by decide)⟩

/-! ## Claims C7 and C9 — the scheduler pool -/

theorem poolStep_inv (s : PoolSt) (hs : PoolInv s) (e : PoolEv) :
    PoolInv (poolStep s e) := by
  obtain ⟨sch, w, k, pend, rets⟩ := s
  obtain ⟨h0, h1, h2⟩ := hs
  cases e with
  | call cid =>
    cases sch with
    | some i =>
      obtain ⟨hi, hc⟩ := h1 i rfl
      subst hi
      dsimp only [poolStep]
      refine ⟨fun hn => by simp at hn, fun i' hi' => ?_, fun c i' w' hmem => ?_⟩
      · obtain rfl : (1 : Nat) = i' := by simpa using hi'
        exact ⟨rfl, hc⟩
      · rcases List.mem_append.mp hmem with hmem | hmem
        · exact h2 c i' w' hmem
        · obtain ⟨-, h, -⟩ : c = cid ∧ i' = 1 ∧ w' = w := by simpa using hmem
          exact h
    | none =>
      obtain ⟨hc0, hr0, -⟩ := h0 rfl
      have hk : k = 0 := hc0
      have hr : rets = [] := hr0
      dsimp only [poolStep]
      refine ⟨fun hn => by simp at hn, fun i' hi' => ?_, fun c i' w' hmem => ?_⟩
      · obtain rfl : k + 1 = i' := by simpa using hi'
        exact ⟨by omega, by show k + 1 = 1; omega⟩
      · subst hr
        simp at hmem
  | workerReady =>
    cases sch with
    | none => exact ⟨h0, h1, h2⟩
    | some i =>
      obtain ⟨hi, hc⟩ := h1 i rfl
      subst hi
      dsimp only [poolStep]
      cases pend with
      | some p =>
        split
        · refine ⟨fun hn => by simp at hn, fun i' hi' => ?_, fun c i' w' hmem => ?_⟩
          · obtain rfl : (1 : Nat) = i' := by simpa using hi'
            exact ⟨rfl, hc⟩
          · rcases List.mem_append.mp hmem with hmem | hmem
            · exact h2 c i' w' hmem
            · obtain ⟨-, h, -⟩ : c = p ∧ i' = 1 ∧ w' = w + 1 := by simpa using hmem
              exact h
        · refine ⟨fun hn => by simp at hn, fun i' hi' => ?_, h2⟩
          obtain rfl : (1 : Nat) = i' := by simpa using hi'
          exact ⟨rfl, hc⟩
      | none =>
        split
        · refine ⟨fun hn => by simp at hn, fun i' hi' => ?_, fun c i' w' hmem => ?_⟩
          · obtain rfl : (1 : Nat) = i' := by simpa using hi'
            exact ⟨rfl, hc⟩
          · rcases List.mem_append.mp hmem with hmem | hmem
            · exact h2 c i' w' hmem
            · simp at hmem
        · refine ⟨fun hn => by simp at hn, fun i' hi' => ?_, h2⟩
          obtain rfl : (1 : Nat) = i' := by simpa using hi'
          exact ⟨rfl, hc⟩
  | workerFail =>
    cases sch with
    | none => exact ⟨h0, h1, h2⟩
    | some i =>
      obtain ⟨hi, hc⟩ := h1 i rfl
      subst hi
      cases pend with
      | none => exact ⟨h0, h1, h2⟩
      | some p =>
        dsimp only [poolStep]
        refine ⟨fun hn => by simp at hn, fun i' hi' => ?_, fun c i' w' hmem => ?_⟩
        · obtain rfl : (1 : Nat) = i' := by simpa using hi'
          exact ⟨rfl, hc⟩
        · rcases List.mem_append.mp hmem with hmem | hmem
          · exact h2 c i' w' hmem
          · simp at hmem

theorem runPool_inv (evs : List PoolEv) : PoolInv (runPool evs) := by
  have h : ∀ s, PoolInv s → PoolInv (evs.foldl poolStep s) := by
    induction evs with
    | nil => exact fun s hs => hs
    | cons e es ih => exact fun s hs => ih _ (poolStep_inv s hs e)
  exact h poolInit
    ⟨fun _ => ⟨rfl, rfl, rfl⟩, fun i hi => by simp [poolInit] at hi,
      fun c i w hmem => by simp [poolInit] at hmem⟩

/-- A single step leaves the scheduler unconstructed exactly when it was
unconstructed and the event is not a call. -/
theorem poolStep_sched_none (s : PoolSt) (e : PoolEv) :
    ((poolStep s e).sched = none) ↔ (s.sched = none ∧ isCallEv e = false) := by
  obtain ⟨sch, w, k, pend, rets⟩ := s
  cases e with
  | call cid => cases sch <;> simp [poolStep, isCallEv]
  | workerReady =>
    cases sch with
    | none => simp [poolStep, isCallEv]
    | some i =>
      cases hw : (w + 1 == WORKER_COUNT) <;> simp [poolStep, hw, isCallEv]
  | workerFail =>
    cases sch with
    | none => simp [poolStep, isCallEv]
    | some i =>
      cases pend <;> simp [poolStep, isCallEv]

theorem foldl_sched_none (evs : List PoolEv) : ∀ s : PoolSt,
    ((evs.foldl poolStep s).sched = none ↔
      (s.sched = none ∧ evs.any isCallEv = false)) := by
  induction evs with
  | nil => intro s; simp
  | cons e es ih =>
    intro s
    rw [List.foldl_cons, ih, poolStep_sched_none]
    simp only [List.any_cons, Bool.or_eq_false_iff]
    tauto

theorem runPool_sched_none (evs : List PoolEv) :
    ((runPool evs).sched = none ↔ evs.any isCallEv = false) := by
  rw [runPool, foldl_sched_none]
  simp [poolInit]

/-- A later call (the scheduler already constructed) constructs nothing and
immediately returns the existing pool with its current worker count. -/
theorem poolStep_call_of_sched {s : PoolSt} {i : Nat} (h : s.sched = some i)
    (cid : Nat) :
    poolStep s (.call cid) =
      { s with returns := s.returns ++ [(cid, .ok i s.workers)] } := by
  obtain ⟨sch, w, k, pend, rets⟩ := s
  simp only at h
  subst h
  rfl

/-- A worker failure while a caller awaits initialization resolves that
caller as failed. -/
theorem poolStep_fail_of_pending {s : PoolSt} {i p : Nat}
    (hs : s.sched = some i) (hp : s.pending = some p) :
    poolStep s .workerFail =
      { s with pending := none, returns := s.returns ++ [(p, .failed)] } := by
  obtain ⟨sch, w, k, pend, rets⟩ := s
  simp only at hs hp
  subst hs
  subst hp
  rfl

/-- Claim C7 counterexample.  After a worker fails during initialization,
the initializing caller fails fatally, but the module-level `scheduler`
variable was already set: a later call silently receives the
partially-initialized pool, here with only 2 of the 3 engines — refuting
"no partially-initialized pool is silently used by any later call". -/
theorem claim_C7_counterexample :
    (runPool [.call 1, .workerFail, .workerReady, .workerReady, .call 2]).returns
      = [(1, CallRes.failed), (2, CallRes.ok 1 2)] ∧
    (2 : Nat) < WORKER_COUNT := by decide

/-- Claim C7 as amended (proved).  Pool initialization is idempotent —
the engine batch is constructed at most once, and a call finding the pool
already published constructs nothing and returns that same pool — and a
worker failure during initialization makes the initializing call fail
fatally; however, the pool reference is published before the workers
finish, so a later call can silently receive the partially-initialized
pool (the call returns the pool with whatever workers it has at that
moment, with no error). -/
theorem claim_C7_amended (evs : List PoolEv) (cid : Nat) :
    (runPool evs).constructions ≤ 1 ∧
    (∀ i, (runPool evs).sched = some i →
      (poolStep (runPool evs) (.call cid)).constructions =
        (runPool evs).constructions ∧
      (poolStep (runPool evs) (.call cid)).returns =
        (runPool evs).returns ++ [(cid, CallRes.ok i (runPool evs).workers)]) ∧
    (∀ p, (runPool evs).pending = some p → ∀ i, (runPool evs).sched = some i →
      (poolStep (runPool evs) .workerFail).returns =
        (runPool evs).returns ++ [(p, CallRes.failed)]) := by
  obtain ⟨h0, h1, h2⟩ := runPool_inv evs
  refine ⟨?_, ?_, ?_⟩
  · cases hsch : (runPool evs).sched with
    | none => have := (h0 hsch).1; omega
    | some i => have := (h1 i hsch).2; omega
  · intro i hsch
    rw [poolStep_call_of_sched hsch]
    exact ⟨rfl, rfl⟩
  · intro p hp i hsch
    rw [poolStep_fail_of_pending hsch hp]

/-- Witness for the amended C7: after the single initializing call, a
second call returns the same pool (identity 1, currently 0 workers)
without constructing, and a worker failure fails the initializing
caller. -/
theorem claim_C7_witness :
    (runPool [PoolEv.call 1]).constructions ≤ 1 ∧
    (poolStep (runPool [PoolEv.call 1]) (.call 2)).constructions =
      (runPool [PoolEv.call 1]).constructions ∧
    (poolStep (runPool [PoolEv.call 1]) (.call 2)).returns =
      (runPool [PoolEv.call 1]).returns ++ [(2, CallRes.ok 1 0)] ∧
    (poolStep (runPool [PoolEv.call 1]) .workerFail).returns =
      (runPool [PoolEv.call 1]).returns ++ [(1, CallRes.failed)] := by
  have h := claim_C7_amended [PoolEv.call 1] 2
  exact ⟨h.1, (h.2.1 1 (by decide)).1, (h.2.1 1 (by decide)).2,
    h.2.2 1 (by decide) 1 (by decide)⟩

/-- Claim C9 counterexample.  When a second caller arrives during first-use
initialization, it does not wait: it receives the pool immediately, here
with 0 of the 3 workers — refuting "every concurrent caller waits for and
receives the same fully-initialized pool rather than a pool still missing
workers".  (The initializing caller does receive the full pool.) -/
theorem claim_C9_counterexample :
    (runPool [.call 1, .call 2, .workerReady, .workerReady, .workerReady]).returns
      = [(2, CallRes.ok 1 0), (1, CallRes.ok 1 3)] ∧
    (0 : Nat) ≠ WORKER_COUNT := by decide

/-- Claim C9 as amended (proved).  Concurrent first use performs exactly
one underlying construction of the engine batch (none at all when no call
occurs), and every caller that gets a result receives the same single pool
(identity 1); however, a caller arriving during initialization receives
the pool immediately, possibly still missing workers, rather than waiting
for full initialization. -/
theorem claim_C9_amended (evs : List PoolEv) :
    (runPool evs).constructions = (if evs.any isCallEv then 1 else 0) ∧
    (∀ c i w, (c, CallRes.ok i w) ∈ (runPool evs).returns → i = 1) := by
  obtain ⟨h0, h1, h2⟩ := runPool_inv evs
  refine ⟨?_, h2⟩
  by_cases hc : evs.any isCallEv
  · rw [if_pos hc]
    cases hsch : (runPool evs).sched with
    | none =>
      have := (runPool_sched_none evs).mp hsch
      rw [this] at hc
      exact absurd hc (by simp)
    | some i => exact (h1 i hsch).2
  · rw [if_neg hc]
    have hn : (runPool evs).sched = none :=
      (runPool_sched_none evs).mpr (Bool.not_eq_true _ ▸ hc)
    exact (h0 hn).1

/-- Witness for the amended C9 on a concrete trace: one call followed by
three worker completions constructs once, and the lone result refers to
pool 1. -/
theorem claim_C9_witness :
    (runPool [PoolEv.call 7, .workerReady, .workerReady, .workerReady]).constructions
      = 1 ∧ (1 : Nat) = 1 := by
  have h := claim_C9_amended [PoolEv.call 7, .workerReady, .workerReady, .workerReady]
  exact ⟨h.1, h.2 7 1 3 (by decide)⟩

/-! ## Lemmas for claims C2 and C4 -/

theorem dropWhile_eq_self_of_not (p : Char → Bool) (l : List Char)
    (h : ∀ c ∈ l, p c = false) : l.dropWhile p = l := by
  cases l with
  | nil => rfl
  | cons c cs => simp [List.dropWhile_cons, h c (by simp)]

theorem trimWs_eq_self {l : List Char} (h : ∀ c ∈ l, jsWs c = false) :
    trimWs l = l := by
  unfold trimWs
  rw [dropWhile_eq_self_of_not _ _ h,
    dropWhile_eq_self_of_not _ _ (fun c hc => h c (List.mem_reverse.mp hc)),
    List.reverse_reverse]

theorem trimWs_ne_nil {l : List Char} (c : Char) (hc : c ∈ l)
    (hw : jsWs c = false) : trimWs l ≠ [] := by
  intro he
  unfold trimWs at he
  rw [List.reverse_eq_nil_iff, List.dropWhile_eq_nil_iff] at he
  have hc' : c ∈ l.dropWhile jsWs ∨ c ∈ l.takeWhile jsWs := by
    rw [← List.takeWhile_append_dropWhile jsWs l] at hc
    rcases List.mem_append.mp hc with h | h
    exacts [Or.inr h, Or.inl h]
  rcases hc' with h | h
  · exact absurd (he c (List.mem_reverse.mpr h)) (by rw [hw]; simp)
  · exact absurd (List.mem_takeWhile_imp h) (by rw [hw]; simp)

theorem mk_ne_empty {l : List Char} (h : l ≠ []) : String.mk l ≠ "" := by
  intro he
  exact h (by simpa using congrArg String.data he)

/-- Appending to an all-`p` block then a failing head: `takeWhile` stops
exactly at the block boundary. -/
theorem takeWhile_app_cons (p : Char → Bool) (a : List Char) (c : Char)
    (r : List Char) (ha : ∀ x ∈ a, p x = true) (hc : p c = false) :
    (a ++ c :: r).takeWhile p = a ∧ (a ++ c :: r).dropWhile p = c :: r := by
  induction a with
  | nil => simp [List.takeWhile_cons, List.dropWhile_cons, hc]
  | cons x xs ih =>
    have hx : p x = true := ha x (by simp)
    have ih' := ih (fun y hy => ha y (by simp [hy]))
    simp [List.takeWhile_cons, List.dropWhile_cons, hx, ih'.1, ih'.2]

theorem le_length_takeWhile (p : Char → Bool) (l : List Char) (n : Nat)
    (h1 : (l.take n).length = n) (h2 : ∀ x ∈ l.take n, p x = true) :
    n ≤ (l.takeWhile p).length := by
  induction n generalizing l with
  | zero => exact Nat.zero_le _
  | succ m ih =>
    cases l with
    | nil => simp at h1
    | cons c cs =>
      have hc : p c = true := h2 c (by simp)
      have hm : m ≤ (cs.takeWhile p).length :=
        ih cs (by simpa using h1) (fun x hx => h2 x (by simp [hx]))
      simp only [List.takeWhile_cons, hc, if_true, List.length_cons]
      omega

theorem plusMatchAt_isSome_of_shape {a b post : List Char}
    (ha : ∀ x ∈ a, isAlnum x = true) (ha4 : 4 ≤ a.length) (ha8 : a.length ≤ 8)
    (hb : ∀ x ∈ b, isAlnum x = true) (hb2 : 2 ≤ b.length) :
    (plusMatchAt (a ++ '+' :: (b ++ post))).isSome = true := by
  have hplus : isAlnum '+' = false := by decide
  obtain ⟨ht, hd⟩ := takeWhile_app_cons isAlnum a '+' (b ++ post) ha hplus
  have hbl : 2 ≤ ((b ++ post).takeWhile isAlnum).length := by
    apply le_length_takeWhile
    · have h2b : (2 : Nat) ≤ b.length := hb2
      rw [List.take_append_of_le_length h2b, List.length_take]
      omega
    · intro x hx
      rw [List.take_append_of_le_length hb2] at hx
      exact hb x (List.take_subset 2 b hx)
  simp only [plusMatchAt]
  rw [ht, hd, if_pos ⟨ha4, ha8⟩]
  dsimp only
  rw [if_pos rfl, if_pos hbl]
  rfl

theorem matchAt_isSome_of_specTokSeg {seg : List Char}
    (h : specTokSeg seg = true) : (plusMatchAt seg).isSome = true := by
  unfold specTokSeg at h
  rw [List.any_eq_true] at h
  obtain ⟨la, hla, h⟩ := h
  rw [List.any_eq_true] at h
  obtain ⟨lb, hlb, h⟩ := h
  simp only [Bool.and_eq_true, decide_eq_true_eq, List.all_eq_true] at h
  obtain ⟨⟨⟨⟨h1, h2⟩, h3⟩, h4⟩, h5⟩ := h
  have hla' : la ∈ [4, 5, 6, 7, 8] := hla
  have hlb' : lb ∈ [2, 3, 4] := hlb
  have hlab : (4 ≤ la ∧ la ≤ 8) ∧ 2 ≤ lb := by
    simp only [List.mem_cons, List.mem_singleton, List.not_mem_nil, or_false]
      at hla' hlb'
    constructor
    · rcases hla' with rfl | rfl | rfl | rfl | rfl <;> omega
    · rcases hlb' with rfl | rfl | rfl <;> omega
  have hdrop : seg.drop la = '+' :: seg.drop (la + 1) := by
    cases hd : seg.drop la with
    | nil => rw [hd] at h3; simp at h3
    | cons c r =>
      rw [hd] at h3
      simp only [List.take_succ_cons, List.take_zero, List.cons.injEq,
        and_true] at h3
      subst h3
      have hr : seg.drop (la + 1) = r := by
        rw [← List.tail_drop, hd]
        rfl
      rw [hr]
  have hseg : seg = seg.take la ++ '+' ::
      ((seg.drop (la + 1)).take lb ++ (seg.drop (la + 1)).drop lb) := by
    rw [List.take_append_drop lb (seg.drop (la + 1)), ← hdrop,
      List.take_append_drop la seg]
  rw [hseg]
  apply plusMatchAt_isSome_of_shape
  · exact h2
  · rw [h1]; exact hlab.1.1
  · rw [h1]; exact hlab.1.2
  · exact h5
  · rw [h4]; exact hlab.2

theorem searchTok_isSome_of_matchAt : ∀ (nt : List Char) (i : Nat),
    (plusMatchAt (nt.drop i)).isSome = true →
    (plusSearchTok nt).isSome = true := by
  intro nt
  induction nt with
  | nil =>
    intro i h
    rw [List.drop_nil] at h
    exact absurd h (by decide)
  | cons c cs ih =>
    intro i h
    cases i with
    | zero =>
      rw [List.drop_zero] at h
      unfold plusSearchTok
      cases hm : plusMatchAt (c :: cs) with
      | some tr => simp
      | none => rw [hm] at h; simp at h
    | succ j =>
      rw [List.drop_succ_cons] at h
      have hcs := ih j h
      unfold plusSearchTok
      cases hm : plusMatchAt (c :: cs) with
      | some tr => simp
      | none => exact hcs

theorem plusMatchAt_sound {l : List Char} {tok rest : List Char}
    (h : plusMatchAt l = some (tok, rest)) :
    (∃ a btk, tok = a ++ '+' :: btk ∧ (∀ x ∈ a, isAlnum x = true) ∧
      4 ≤ a.length ∧ a.length ≤ 8 ∧ (∀ x ∈ btk, isAlnum x = true) ∧
      2 ≤ btk.length ∧ btk.length ≤ 4) ∧
    specTokSeg l = true := by
  simp only [plusMatchAt] at h
  split at h
  case isFalse => exact absurd h (by simp)
  case isTrue hcond =>
    split at h
    case h_2 => exact absurd h (by simp)
    case h_1 c r2 heq =>
      split at h
      case isFalse => exact absurd h (by simp)
      case isTrue hc =>
        split at h
        case isFalse => exact absurd h (by simp)
        case isTrue hb =>
          subst hc
          simp only [Option.some.injEq, Prod.mk.injEq] at h
          obtain ⟨htok, -⟩ := h
          have hdecomp := List.takeWhile_append_dropWhile isAlnum l
          have hdl : l.drop (l.takeWhile isAlnum).length = '+' :: r2 := by
            have hx := List.drop_left (l.takeWhile isAlnum) (l.dropWhile isAlnum)
            rw [hdecomp] at hx
            rw [hx, heq]
          have htl : l.take (l.takeWhile isAlnum).length = l.takeWhile isAlnum := by
            have hx := List.take_left (l.takeWhile isAlnum) (l.dropWhile isAlnum)
            rw [hdecomp] at hx
            exact hx
          have hr2 : l.drop ((l.takeWhile isAlnum).length + 1) = r2 := by
            rw [← List.tail_drop, hdl]
            rfl
          have hbtk2 : 2 ≤ ((r2.takeWhile isAlnum).take 4).length := by
            rw [List.length_take]
            omega
          have hbtk4 : ((r2.takeWhile isAlnum).take 4).length ≤ 4 := by
            rw [List.length_take]
            omega
          constructor
          · refine ⟨l.takeWhile isAlnum, (r2.takeWhile isAlnum).take 4, htok.symm,
              fun x hx => List.mem_takeWhile_imp hx, hcond.1, hcond.2,
              fun x hx => List.mem_takeWhile_imp (List.take_subset 4 _ hx),
              hbtk2, hbtk4⟩
          · unfold specTokSeg
            rw [List.any_eq_true]
            refine ⟨(l.takeWhile isAlnum).length, ?_, ?_⟩
            · have hr : List.range' 4 5 = [4, 5, 6, 7, 8] := rfl
              rw [hr]
              have h4 := hcond.1
              have h8 := hcond.2
              simp only [List.mem_cons, List.mem_singleton, List.not_mem_nil,
                or_false]
              omega
            · rw [List.any_eq_true]
              refine ⟨2, by decide, ?_⟩
              simp only [Bool.and_eq_true, decide_eq_true_eq, List.all_eq_true]
              have ht2 : (l.drop ((l.takeWhile isAlnum).length + 1)).take 2 =
                  (r2.takeWhile isAlnum).take 2 := by
                rw [hr2]
                conv_lhs => rw [← List.takeWhile_append_dropWhile isAlnum r2]
                rw [List.take_append_of_le_length hb]
              refine ⟨⟨⟨⟨?_, ?_⟩, ?_⟩, ?_⟩, ?_⟩
              · rw [htl]
              · intro x hx
                rw [htl] at hx
                exact List.mem_takeWhile_imp hx
              · rw [hdl]
                rfl
              · rw [ht2, List.length_take]
                omega
              · intro x hx
                rw [ht2] at hx
                exact List.mem_takeWhile_imp (List.take_subset 2 _ hx)

theorem plusSearchTok_sound : ∀ (nt tok : List Char),
    plusSearchTok nt = some tok →
    (∃ a btk, tok = a ++ '+' :: btk ∧ (∀ x ∈ a, isAlnum x = true) ∧
      4 ≤ a.length ∧ a.length ≤ 8 ∧ (∀ x ∈ btk, isAlnum x = true) ∧
      2 ≤ btk.length ∧ btk.length ≤ 4) ∧
    ∃ i, i < nt.length ∧ specTokAt nt i = true := by
  intro nt
  induction nt with
  | nil => intro tok h; exact absurd h (by simp [plusSearchTok])
  | cons c cs ih =>
    intro tok h
    unfold plusSearchTok at h
    cases hm : plusMatchAt (c :: cs) with
    | some tr =>
      rw [hm] at h
      obtain rfl : tr.1 = tok := by simpa using h
      obtain ⟨hstr, hspec⟩ :=
        plusMatchAt_sound (show plusMatchAt (c :: cs) = some (tr.1, tr.2) by
          rw [hm])
      exact ⟨hstr, 0, by simp, hspec⟩
    | none =>
      rw [hm] at h
      obtain ⟨hstr, i, hi, hs⟩ := ih tok h
      refine ⟨hstr, i + 1, by simp; omega, ?_⟩
      show specTokSeg ((c :: cs).drop (i + 1)) = true
      rw [List.drop_succ_cons]
      exact hs

/-- The matcher finds a token exactly when the claim's notion of
"the text contains a well-formed plus-code token" holds. -/
theorem plusSearchTok_isSome_eq (nt : List Char) :
    (plusSearchTok nt).isSome = specHasTok nt := by
  rw [Bool.eq_iff_iff]
  constructor
  · intro h
    obtain ⟨tok, htok⟩ := Option.isSome_iff_exists.mp h
    obtain ⟨-, i, hi, hs⟩ := plusSearchTok_sound nt tok htok
    unfold specHasTok
    rw [List.any_eq_true]
    exact ⟨i, List.mem_range.mpr hi, hs⟩
  · intro h
    unfold specHasTok at h
    rw [List.any_eq_true] at h
    obtain ⟨i, -, hs⟩ := h
    exact searchTok_isSome_of_matchAt nt i (matchAt_isSome_of_specTokSeg hs)

/-- Claim C2 as amended (proved).  For every input text containing a
well-formed plus-code token (4–8 alphanumerics, a literal `+`, then 2–4
alphanumerics, case-insensitive), the plusCode field is the first such
match plus any valid trailing address suffix (repeated groups of
space/comma separators followed by alphanumeric tokens of length ≥ 2,
trailing separators trimmed) — where the suffix is matched against the
segment of the normalized text strictly *between the first occurrence of
the matched token and its next occurrence* (the code splits the text on
the token and takes the second piece), not against all text after the
match; and for every input text containing no such token the plusCode
field is exactly `"Not found"`, with no suffix logic run. -/
theorem claim_C2_amended (name text : String) :
    (specHasTok (normalizeText text) = true →
      ∃ tok, plusSearchTok (normalizeText text) = some tok ∧
        (processText name text).plusCode = String.mk
          (tok ++ trimTrailSeps (addrSuffix
            (match dropToAfter tok (normalizeText text) with
             | some rest => takeBefore tok rest
             | none => [])))) ∧
    (specHasTok (normalizeText text) = false →
      (processText name text).plusCode = "Not found") := by
  constructor
  · intro h
    have hsome : (plusSearchTok (normalizeText text)).isSome = true := by
      rw [plusSearchTok_isSome_eq]
      exact h
    obtain ⟨tok, htok⟩ := Option.isSome_iff_exists.mp hsome
    obtain ⟨⟨a, btk, htk, haa, -, -, hba, -, -⟩, -⟩ :=
      plusSearchTok_sound _ _ htok
    have hnws : ∀ c ∈ tok, jsWs c = false := by
      intro x hx
      rw [htk] at hx
      rcases List.mem_append.mp hx with hx | hx
      · exact isAlnum_not_ws (haa x hx)
      · rcases List.mem_cons.mp hx with rfl | hx
        · decide
        · exact isAlnum_not_ws (hba x hx)
    have htr : trimWs tok = tok := trimWs_eq_self hnws
    refine ⟨tok, htok, ?_⟩
    show String.mk (plusCodeField (normalizeText text)) = _
    unfold plusCodeField
    rw [htok]
    dsimp only
    rw [htr]
  · intro h
    have hnone : plusSearchTok (normalizeText text) = none := by
      rw [← Option.not_isSome_iff_eq_none, plusSearchTok_isSome_eq, h]
      simp
    show String.mk (plusCodeField (normalizeText text)) = _
    unfold plusCodeField
    rw [hnone]
    rfl

/-- Witness for the amended C2: a text holding the token `9G22+XF` gets
the token plus its address suffix; a text with no token gets the
sentinel. -/
theorem claim_C2_witness :
    (∃ tok, plusSearchTok (normalizeText "9G22+XF Karachi") = some tok ∧
      (processText "img" "9G22+XF Karachi").plusCode = String.mk
        (tok ++ trimTrailSeps (addrSuffix
          (match dropToAfter tok (normalizeText "9G22+XF Karachi") with
           | some rest => takeBefore tok rest
           | none => [])))) ∧
    (processText "img" "no token here").plusCode = "Not found" :=
  ⟨(claim_C2_amended "img" "9G22+XF Karachi").1 (by decide),
   (claim_C2_amended "img" "no token here").2 (by decide)⟩

theorem reRun_length : ∀ (r : RE) (l l' : List Char),
    l' ∈ reRun r l → l'.length ≤ l.length := by
  intro r
  induction r with
  | eps =>
    intro l l' h
    simp only [reRun, List.mem_singleton] at h
    exact h ▸ le_refl _
  | cls p =>
    intro l l' h
    cases l with
    | nil => simp [reRun] at h
    | cons c cs =>
      simp only [reRun] at h
      split at h
      · simp only [List.mem_singleton] at h
        subst h
        exact Nat.le_succ _
      · simp at h
  | seq a b iha ihb =>
    intro l l' h
    simp only [reRun, List.mem_flatMap] at h
    obtain ⟨m, hm, hl'⟩ := h
    exact le_trans (ihb m l' hl') (iha l m hm)
  | alt a b iha ihb =>
    intro l l' h
    simp only [reRun, List.mem_append] at h
    rcases h with h | h
    · exact iha l l' h
    · exact ihb l l' h

theorem headDigit_dC : HeadDigit dC := by
  intro l l' h
  cases l with
  | nil => simp [dC, reRun] at h
  | cons c cs =>
    simp only [dC, reRun] at h
    split at h
    next hp =>
      simp only [List.mem_singleton] at h
      exact ⟨c, cs, rfl, hp, by simp [h]⟩
    next => simp at h

theorem headDigit_seq (X r : RE) (hX : HeadDigit X) : HeadDigit (.seq X r) := by
  intro l l' h
  simp only [reRun, List.mem_flatMap] at h
  obtain ⟨m, hm, hl'⟩ := h
  obtain ⟨c, cs, rfl, hd, hlt⟩ := hX l m hm
  exact ⟨c, cs, rfl, hd, lt_of_le_of_lt (reRun_length r m l' hl') hlt⟩

theorem headDigit_d2 : HeadDigit d2 := headDigit_seq dC dC headDigit_dC

theorem headDigit_ds12 : HeadDigit ds12 := by
  intro l l' h
  simp only [ds12, reRun, List.mem_append] at h
  rcases h with h | h
  · exact headDigit_d2 l l' h
  · exact headDigit_dC l l' h

theorem matchTwoAt_some {g1 g2 : RE} {l : List Char} {c : List Char × List Char}
    (h : matchTwoAt g1 g2 l = some c) :
    ∃ l1, l1 ∈ reRun g1 l ∧ c.1 = capOf l l1 := by
  unfold matchTwoAt at h
  obtain ⟨ys, hys⟩ := List.head?_eq_some_iff.mp h
  have hmem : c ∈ (reRun g1 l).flatMap (fun l1 =>
      (wsPlus l1).flatMap (fun l2 =>
        (reRun g2 l2).map (fun l3 => (capOf l l1, capOf l2 l3)))) := by
    rw [hys]
    exact List.mem_cons_self _ _
  simp only [List.mem_flatMap, List.mem_map] at hmem
  obtain ⟨l1, h1, l2, h2, l3, h3, heq⟩ := hmem
  exact ⟨l1, h1, by rw [← heq]⟩

theorem searchTwo_some {g1 g2 : RE} : ∀ (l : List Char)
    {c : List Char × List Char}, searchTwo g1 g2 l = some c →
    ∃ l0 : List Char, matchTwoAt g1 g2 l0 = some c := by
  intro l
  induction l with
  | nil => intro c h; exact ⟨[], h⟩
  | cons x xs ih =>
    intro c h
    unfold searchTwo at h
    cases hm : matchTwoAt g1 g2 (x :: xs) with
    | some c' =>
      rw [hm] at h
      simp only [Option.some_orElse] at h
      exact ⟨x :: xs, hm.trans h⟩
    | none =>
      rw [hm] at h
      simp only [Option.none_orElse] at h
      exact ih h

theorem capOf_head {l' : List Char} {c : Char} {cs : List Char}
    (hlt : l'.length < (c :: cs).length) : c ∈ capOf (c :: cs) l' := by
  unfold capOf
  have hk : (c :: cs).length - l'.length =
      ((c :: cs).length - l'.length - 1) + 1 := by
    simp only [List.length_cons] at hlt ⊢
    omega
  rw [hk, List.take_succ_cons]
  simp

theorem tsCapture_has_digit {g1 g2 : RE} (hg : HeadDigit g1) {l : List Char}
    {c : List Char × List Char} (h : matchTwoAt g1 g2 l = some c) :
    ∃ ch, ch ∈ c.1 ∧ isDigit ch = true := by
  obtain ⟨l1, h1, hcap⟩ := matchTwoAt_some h
  obtain ⟨ch, cs, rfl, hd, hlt⟩ := hg l l1 h1
  exact ⟨ch, hcap ▸ capOf_head hlt, hd⟩

theorem stripLeadZeros_ne_nil (l : List Char) : stripLeadZeros l ≠ [] := by
  unfold stripLeadZeros
  split
  · simp
  · next heq => exact fun h => heq (h ▸ rfl) |>.elim

theorem decStrTok_ne_nil (t : NumTok) : decStrTok t ≠ [] := by
  simp only [decStrTok]
  split
  · simp
  · split
    · exact stripLeadZeros_ne_nil _
    · simp

/-- Claim C4 (confirmed).  Extraction is a total function (the embedding
is a Lean function, so no exception can be raised), and each of plusCode,
latitude, longitude and timestamp is either a matched value or exactly the
sentinel `"Not found"` — never the empty string (`null` is not even
representable in the record type). -/
theorem claim_C4 (name text : String) :
    ((processText name text).plusCode ≠ "" ∧
     (processText name text).latitude ≠ "" ∧
     (processText name text).longitude ≠ "" ∧
     (processText name text).timestamp ≠ "") ∧
    ((processText name text).plusCode = "Not found" ∨
      ∃ tok, plusSearchTok (normalizeText text) = some tok) ∧
    ((processText name text).latitude = "Not found" ∨
      ∃ t ∈ coordScan (normalizeText text), inLat t = true ∧
        (processText name text).latitude = String.mk (decStrTok t)) ∧
    ((processText name text).longitude = "Not found" ∨
      ∃ t ∈ coordScan (normalizeText text), inLon t = true ∧
        (processText name text).longitude = String.mk (decStrTok t)) ∧
    ((processText name text).timestamp = "Not found" ∨
      ∃ c, tsPatterns.findSome?
          (fun pr => searchTwo pr.1 pr.2 (normalizeText text)) = some c ∧
        (processText name text).timestamp =
          String.mk (trimWs (c.1 ++ ' ' :: c.2))) := by
  have hpc : (processText name text).plusCode ≠ "" ∧
      ((processText name text).plusCode = "Not found" ∨
        ∃ tok, plusSearchTok (normalizeText text) = some tok) := by
    cases htok : plusSearchTok (normalizeText text) with
    | none =>
      have hv : (processText name text).plusCode = "Not found" := by
        show String.mk (plusCodeField (normalizeText text)) = _
        unfold plusCodeField
        rw [htok]
        rfl
      exact ⟨by rw [hv]; decide, Or.inl hv⟩
    | some tok =>
      obtain ⟨⟨a, btk, htk, haa, ha4, -, hba, -, -⟩, -⟩ :=
        plusSearchTok_sound _ _ htok
      have hnws : ∀ c ∈ tok, jsWs c = false := by
        intro x hx
        rw [htk] at hx
        rcases List.mem_append.mp hx with hx | hx
        · exact isAlnum_not_ws (haa x hx)
        · rcases List.mem_cons.mp hx with rfl | hx
          · decide
          · exact isAlnum_not_ws (hba x hx)
      refine ⟨?_, Or.inr ⟨tok, rfl⟩⟩
      show String.mk (plusCodeField (normalizeText text)) ≠ ""
      unfold plusCodeField
      rw [htok]
      dsimp only
      rw [trimWs_eq_self hnws]
      apply mk_ne_empty
      intro hnil
      obtain ⟨h1, -⟩ := List.append_eq_nil.mp hnil
      rw [htk] at h1
      obtain ⟨-, h2⟩ := List.append_eq_nil.mp h1
      exact absurd h2 (by simp)
  have hlat : (processText name text).latitude ≠ "" ∧
      ((processText name text).latitude = "Not found" ∨
        ∃ t ∈ coordScan (normalizeText text), inLat t = true ∧
          (processText name text).latitude = String.mk (decStrTok t)) := by
    cases hf : List.filter inLat (coordScan (normalizeText text)) with
    | nil =>
      have hv : (processText name text).latitude = "Not found" := by
        show String.mk (latField (normalizeText text)) = _
        unfold latField
        rw [hf]
        rfl
      exact ⟨by rw [hv]; decide, Or.inl hv⟩
    | cons t ts =>
      have hv : (processText name text).latitude = String.mk (decStrTok t) := by
        show String.mk (latField (normalizeText text)) = _
        unfold latField
        rw [hf]
      have hmem : t ∈ List.filter inLat (coordScan (normalizeText text)) := by
        rw [hf]
        exact List.mem_cons_self _ _
      obtain ⟨hm, hl⟩ := List.mem_filter.mp hmem
      exact ⟨by rw [hv]; exact mk_ne_empty (decStrTok_ne_nil t), 
        Or.inr ⟨t, hm, hl, hv⟩⟩
  have hlon : (processText name text).longitude ≠ "" ∧
      ((processText name text).longitude = "Not found" ∨
        ∃ t ∈ coordScan (normalizeText text), inLon t = true ∧
          (processText name text).longitude = String.mk (decStrTok t)) := by
    cases hf : List.filter inLon (coordScan (normalizeText text)) with
    | nil =>
      have hv : (processText name text).longitude = "Not found" := by
        show String.mk (lonField (normalizeText text)) = _
        unfold lonField
        rw [hf]
        rfl
      exact ⟨by rw [hv]; decide, Or.inl hv⟩
    | cons t ts =>
      have hv : (processText name text).longitude = String.mk (decStrTok t) := by
        show String.mk (lonField (normalizeText text)) = _
        unfold lonField
        rw [hf]
      have hmem : t ∈ List.filter inLon (coordScan (normalizeText text)) := by
        rw [hf]
        exact List.mem_cons_self _ _
      obtain ⟨hm, hl⟩ := List.mem_filter.mp hmem
      exact ⟨by rw [hv]; exact mk_ne_empty (decStrTok_ne_nil t),
        Or.inr ⟨t, hm, hl, hv⟩⟩
  have hts : (processText name text).timestamp ≠ "" ∧
      ((processText name text).timestamp = "Not found" ∨
        ∃ c, tsPatterns.findSome?
            (fun pr => searchTwo pr.1 pr.2 (normalizeText text)) = some c ∧
          (processText name text).timestamp =
            String.mk (trimWs (c.1 ++ ' ' :: c.2))) := by
    cases hc : tsPatterns.findSome?
        (fun pr => searchTwo pr.1 pr.2 (normalizeText text)) with
    | none =>
      have hv : (processText name text).timestamp = "Not found" := by
        show String.mk (tsField (normalizeText text)) = _
        unfold tsField
        rw [hc]
        rfl
      exact ⟨by rw [hv]; decide, Or.inl hv⟩
    | some c =>
      have hv : (processText name text).timestamp =
          String.mk (trimWs (c.1 ++ ' ' :: c.2)) := by
        show String.mk (tsField (normalizeText text)) = _
        unfold tsField
        rw [hc]
      obtain ⟨pr, hpr, hsearch⟩ := List.exists_of_findSome?_eq_some hc
      obtain ⟨l0, hm⟩ := searchTwo_some _ hsearch
      have hg : HeadDigit pr.1 := by
        simp only [tsPatterns, List.mem_cons, List.mem_singleton,
          List.not_mem_nil, or_false] at hpr
        rcases hpr with rfl | rfl | rfl | rfl
        · exact headDigit_seq _ _ headDigit_ds12
        · exact headDigit_seq _ _ headDigit_ds12
        · exact headDigit_seq _ _ headDigit_d2
        · exact headDigit_seq _ _ headDigit_ds12
      obtain ⟨ch, hch, hd⟩ := tsCapture_has_digit hg hm
      refine ⟨?_, Or.inr ⟨c, rfl, hv⟩⟩
      rw [hv]
      exact mk_ne_empty (trimWs_ne_nil ch
        (List.mem_append.mpr (Or.inl hch)) (isDigit_not_ws hd))
  exact ⟨⟨hpc.1, hlat.1, hlon.1, hts.1⟩, hpc.2, hlat.2, hlon.2, hts.2⟩
